import Mathlib

/-!
Shallow embedding of `src/lib/FindHALBypass.cpp` (the `FindHALBypass` LLVM
analysis pass) and proofs about it.

Strings are modelled as `List Char` (the pass manipulates `std::string`
byte-wise with ASCII-only operations).  The LLVM call graph is modelled as
the list of its `FunctionMap` nodes in iteration order: each node carries
`getFunction()` (`none` for the external-calling node, which LLVM stores
under the null key) and the list of callee node indices, one entry per call
record.  `CallsExternalNode` is not part of the map; the pass appends it at
index `cg.length` (`extIdx`), exactly as `computeCallGraphTransClosure`
assigns it the last dense index.  Functions are identified by `Nat` handles.

The closure matrix is, as in the source, a flat vector of `N * N` cells
indexed `i * N + j` (C++ `std::vector<int>` holding 0/1; we use `Bool`).
-/

namespace HalBypass

/-! ### Strings and the name heuristic (lines 75-110) -/

/-- `std::tolower` on an ASCII byte (C locale), as used in
`isHalRegexInternal`'s `std::transform`. -/
def toLowerAscii (c : Char) : Char :=
  if 'A' ≤ c ∧ c ≤ 'Z' then Char.ofNat (c.toNat + 32) else c

/-- Lowercasing pass over the whole string (`std::transform` at lines 78-79). -/
def lowerStr (s : List Char) : List Char := s.map toLowerAscii

def strHal : List Char := ['h', 'a', 'l']
def strHalt : List Char := ['h', 'a', 'l', 't']
def strDriver : List Char := ['d', 'r', 'i', 'v', 'e', 'r']
def strArch : List Char := ['a', 'r', 'c', 'h']
def strSoc : List Char := ['s', 'o', 'c']
def strCmsis : List Char := ['c', 'm', 's', 'i', 's']

/-- Does `hay` start with `needle`? -/
def startsWithStr : List Char → List Char → Bool
  | [], _ => true
  | _ :: _, [] => false
  | a :: as, b :: bs => a == b && startsWithStr as bs

/-- `hay.find(needle) != std::string::npos`: `needle` occurs as a contiguous
substring of `hay`. -/
def containsStr (needle : List Char) : List Char → Bool
  | [] => needle.isEmpty
  | c :: rest => startsWithStr needle (c :: rest) || containsStr needle rest

/-- `FindHALBypass::isHalRegexInternal` (lines 75-87): lowercase the string,
then check the substring conditions of the commented regex
`hal(?!t)|driver|cmsis|arch|soc`.  `Str.find(x) != npos` is substring
containment. -/
def isHalRegexInternal (nm : List Char) : Bool :=
  let str := lowerStr nm
  (containsStr strHal str && !(containsStr strHalt str)) ||
    containsStr strDriver str ||
    containsStr strArch str ||
    containsStr strSoc str ||
    containsStr strCmsis str

/-- Debug/source metadata of a function: the `DISubprogram`/`DIFile`
attributes read by the pass (name, linkage name, file name, directory). -/
structure DebugInfo where
  name : List Char
  linkageName : List Char
  filename : List Char
  directory : List Char
deriving DecidableEq

/-- `FindHALBypass::isHalFuncRegex` (lines 89-110).  `none` models a null
`DISubprogram`: the function warns and returns `false`.  Otherwise the
predicate is the OR over the four metadata strings. -/
def isHalFuncRegex (di : Option DebugInfo) : Bool :=
  match di with
  | none => false
  | some d =>
      isHalRegexInternal d.name || isHalRegexInternal d.linkageName ||
        isHalRegexInternal d.filename || isHalRegexInternal d.directory

/-! ### MMIO registry entries (lines 58-69) -/

/-- One frame of a source location (`DIScope` directory/file plus
line/column), used for the location of the MMIO instruction. -/
structure LocFrame where
  dir : List Char
  file : List Char
  line : Nat
  col : Nat
deriving DecidableEq

/-- A `DebugLoc`: its own frame plus the `getInlinedAt` chain
(outermost location last). -/
structure DbgLoc where
  frame : LocFrame
  inlinedAt : List LocFrame
deriving DecidableEq

/-- `FindMMIOFunc::MMIOFunc`, the parent class: the registry entry produced
by the (external) MMIO detector.  We keep the one field the pass reads,
`MMIOIns->getDebugLoc()` (`none` when the instruction has no debug
location). -/
structure PMMIOFunc where
  mmioLoc : Option DbgLoc
deriving DecidableEq

/-- `FindHALBypass::MMIOFunc`: the parent entry enriched with the fields
computed by this pass.  `IsHal` is the name-based flag (IsHalByName),
`IsHal2` the directory-based flag (IsHalByDirectory). -/
structure MMIOFunc extends PMMIOFunc where
  IsHal : Bool
  IsHal2 : Bool
  InDegree : Nat
  TransClosureInDeg : Nat
  FullPath : List Char
  Dirname : List Char
deriving DecidableEq

/-- `std::string::find_last_of`: index of the last character of `s` that
belongs to `set`, or `none` (npos). -/
def findLastOf (s : List Char) (set : List Char) : Option Nat :=
  ((List.range s.length).filter (fun i =>
    match s.get? i with
    | some c => set.contains c
    | none => false)).getLast?

/-- `FindHALBypass::MMIOFunc::MMIOFunc` (lines 58-69).  The constructor
unconditionally dereferences `F->getSubprogram()` (`DISub->getFile()` at
line 63) with no null check, so a function without debug metadata crashes
the pass: that is modelled by returning `none`.  With metadata present it
builds `FullPath = Dir + "/" + Filename` and truncates at the last path
separator to obtain `Dirname`; all classification fields start `false`/`0`. -/
def mkMMIOFunc (parent : PMMIOFunc) (di : Option DebugInfo) : Option MMIOFunc :=
  match di with
  | none => none
  | some d =>
      let fullPath := d.directory ++ ['/'] ++ d.filename
      let dirname :=
        match findLastOf fullPath ['/', '\\'] with
        | some i => fullPath.take i
        | none => fullPath
      some { toPMMIOFunc := parent, IsHal := false, IsHal2 := false,
             InDegree := 0, TransClosureInDeg := 0,
             FullPath := fullPath, Dirname := dirname }

/-- The registry-construction loop of `runOnModule` (lines 46-51): for each
input entry build the `MMIOFunc` (crashing on missing metadata) and set
`IsHal` from the name heuristic.  `std::map` keys are unique, so plain list
insertion models `MMIOFuncMap.insert`. -/
def buildMap (fns : List (Nat × PMMIOFunc)) (dbgMeta : Nat → Option DebugInfo) :
    Option (List (Nat × MMIOFunc)) :=
  match fns with
  | [] => some []
  | (f, pm) :: rest =>
      match mkMMIOFunc pm (dbgMeta f) with
      | none => none
      | some mf =>
          match buildMap rest dbgMeta with
          | none => none
          | some m => some ((f, { mf with IsHal := isHalFuncRegex (dbgMeta f) }) :: m)

/-! ### The call graph -/

/-- One `CallGraphNode` of the LLVM `FunctionMap`: the function it stands
for (`none` for the external-calling node stored under the null key) and its
call records as callee node indices, one per call site.  The synthetic
`CallsExternalNode` is not an element; it sits at index `cg.length`. -/
structure CGNode where
  func : Option Nat
  calls : List Nat
deriving DecidableEq

/-- `TotNumOfCGN` after line 137: all map nodes plus `CallsExternalNode`. -/
def numNodes (cg : List CGNode) : Nat := cg.length + 1

/-- The dense index of `CallsExternalNode` (assigned last, line 137). -/
def extIdx (cg : List CGNode) : Nat := cg.length

/-- `J.second->getFunction()` for a callee node index: the function of the
node, `nullptr` (`none`) for `CallsExternalNode` and out-of-range indices. -/
def calleeFunc (cg : List CGNode) (j : Nat) : Option Nat :=
  match cg.get? j with
  | some nd => nd.func
  | none => none

/-- The adjacency relation the matrix encodes: node `i` has at least one
call record targeting node `j`. -/
def adjOf (cg : List CGNode) (i j : Nat) : Bool :=
  match cg.get? i with
  | some nd => nd.calls.contains j
  | none => false

/-- `CGN2Num.at(CG[F])`: the dense index of the node of function `f`
(its position in iteration order), `none` when `f` has no node. -/
def nodeIdxOf : List CGNode → Nat → Option Nat
  | [], _ => none
  | nd :: rest, f =>
      if nd.func == some f then some 0
      else (nodeIdxOf rest f).map (· + 1)

/-- Well-formedness of the producer's graph: every call record targets an
existing node (a map node or `CallsExternalNode`).  LLVM guarantees this for
`CallGraph(M)`. -/
def CGWellFormed (cg : List CGNode) : Prop :=
  ∀ nd ∈ cg, ∀ j ∈ nd.calls, j < numNodes cg

instance (cg : List CGNode) : Decidable (CGWellFormed cg) := by
  unfold CGWellFormed
  infer_instance

/-! ### The flat boolean matrix and the closure loops (lines 129-170) -/

/-- Read cell `(i, j)` of the flat `N*N` matrix (`AdjMatrix[i * N + j]`). -/
def mget (n : Nat) (M : List Bool) (i j : Nat) : Bool := M.getD (i * n + j) false

/-- One body execution of the innermost loop (line 155):
`AdjMatrix[I*N+J] = AdjMatrix[I*N+J] || (AdjMatrix[I*N+K] && AdjMatrix[K*N+J])`. -/
def fwUpdate (n K I J : Nat) (M : List Bool) : List Bool :=
  M.set (I * n + J) (mget n M I J || (mget n M I K && mget n M K J))

/-- The `J` loop for fixed `K` and `I` (lines 153-157). -/
def fwPassJ (n K I : Nat) (M : List Bool) : List Bool :=
  (List.range n).foldl (fun M J => fwUpdate n K I J M) M

/-- The `I` loop for fixed `K` (lines 152-158). -/
def fwPassI (n K : Nat) (M : List Bool) : List Bool :=
  (List.range n).foldl (fun M I => fwPassJ n K I M) M

/-- The whole triple loop (lines 151-159), `K` outermost. -/
def fwClosure (n : Nat) (M : List Bool) : List Bool :=
  (List.range n).foldl (fun M K => fwPassI n K M) M

/-- The initial adjacency matrix (lines 138-149): start from all zeroes and
set `AdjMatrix[caller * N + callee] = 1` for every call record of every map
node (`CallsExternalNode` contributes no rows). -/
def initAdj (cg : List CGNode) : List Bool :=
  (List.range cg.length).foldl
    (fun M i =>
      match cg.get? i with
      | some nd => nd.calls.foldl (fun M j => M.set (i * numNodes cg + j) true) M
      | none => M)
    (List.replicate (numNodes cg * numNodes cg) false)

/-- `InDegrees[j]` after the `std::transform`/`std::plus` accumulation
(lines 161-166): the sum of column `j` of the closed matrix. -/
def closureInDeg (n : Nat) (M : List Bool) (j : Nat) : Nat :=
  ((List.range n).map (fun i => if mget n M i j then 1 else 0)).sum

/-- The final loop of `computeCallGraphTransClosure` (lines 167-169): write
`InDegrees[CGN2Num.at(CG[I.first])]` into each registry entry.  A registry
function without a call-graph node makes `.at` throw, modelled by `none`. -/
def setTransClosure (inDeg : Nat → Nat) (cg : List CGNode) :
    List (Nat × MMIOFunc) → Option (List (Nat × MMIOFunc))
  | [] => some []
  | (f, mf) :: rest =>
      match nodeIdxOf cg f with
      | none => none
      | some idx =>
          match setTransClosure inDeg cg rest with
          | none => none
          | some m => some ((f, { mf with TransClosureInDeg := inDeg idx }) :: m)

/-- `FindHALBypass::computeCallGraphTransClosure` (lines 129-170). -/
def computeCallGraphTransClosure (cg : List CGNode) (m : List (Nat × MMIOFunc)) :
    Option (List (Nat × MMIOFunc)) :=
  setTransClosure (closureInDeg (numNodes cg) (fwClosure (numNodes cg) (initAdj cg))) cg m

/-! ### Direct in-degrees (lines 172-189) -/

/-- The resolved target of every call record of every map node, in loop
order: `J.second->getFunction()` for `I` over `CG`, `J` over `*I.second`. -/
def allCallTargets (cg : List CGNode) : List (Option Nat) :=
  (cg.flatMap fun nd => nd.calls).map (calleeFunc cg)

/-- `MMIOFuncMap.find(Callee)` followed by `Iter->second.InDegree++`
(lines 183-186): bump the entry whose key is the resolved callee, if any.
A null callee (`none`, an indirect call) matches no key. -/
def bumpInDegree (m : List (Nat × MMIOFunc)) (tgt : Option Nat) :
    List (Nat × MMIOFunc) :=
  m.map fun e =>
    if tgt == some e.1 then (e.1, { e.2 with InDegree := e.2.InDegree + 1 }) else e

/-- `FindHALBypass::computeCallGraphInDegrees` (lines 172-189): reset every
`InDegree` to 0, then walk every call record once. -/
def computeCallGraphInDegrees (cg : List CGNode) (m : List (Nat × MMIOFunc)) :
    List (Nat × MMIOFunc) :=
  (allCallTargets cg).foldl bumpInDegree
    (m.map fun e => (e.1, { e.2 with InDegree := 0 }))

/-! ### Directory inference (lines 112-127) -/

/-- The `HalDirs` vector (lines 115-120): the `Dirname` of every registry
entry with `TransClosureInDeg >= 10`. -/
def halDirsOf (m : List (Nat × MMIOFunc)) : List (List Char) :=
  (m.filter fun e => 10 ≤ e.2.TransClosureInDeg).map fun e => e.2.Dirname

/-- The second loop of `callGraphBasedHalIdent` (lines 121-126): set
`IsHal2 = true` on every entry whose `Dirname` occurs in `HalDirs`
(`std::find`), leaving other entries untouched. -/
def applyHalDirs (m : List (Nat × MMIOFunc)) : List (Nat × MMIOFunc) :=
  m.map fun e =>
    if (halDirsOf m).contains e.2.Dirname then (e.1, { e.2 with IsHal2 := true }) else e

/-- Degree enrichment: `computeCallGraphInDegrees` then
`computeCallGraphTransClosure` (lines 113-114). -/
def enrichDegrees (cg : List CGNode) (m : List (Nat × MMIOFunc)) :
    Option (List (Nat × MMIOFunc)) :=
  computeCallGraphTransClosure cg (computeCallGraphInDegrees cg m)

/-- `FindHALBypass::callGraphBasedHalIdent` (lines 112-127). -/
def callGraphBasedHalIdent (cg : List CGNode) (m : List (Nat × MMIOFunc)) :
    Option (List (Nat × MMIOFunc)) :=
  (enrichDegrees cg m).map applyHalDirs

/-- `FindHALBypass::runOnModule` (lines 43-56).  The member `MMIOFuncMap` is
passed in explicitly as `prevMap`, the state left over from any previous
run; line 45 (`MMIOFuncMap.clear()`) discards it before anything else, which
matters because `std::map::insert` never overwrites an existing key. -/
def runOnModule (prevMap : List (Nat × MMIOFunc)) (cg : List CGNode)
    (mmioFuncs : List (Nat × PMMIOFunc)) (dbgMeta : Nat → Option DebugInfo) :
    Option (List (Nat × MMIOFunc)) :=
  let _ := prevMap
  match buildMap mmioFuncs dbgMeta with
  | none => none
  | some m0 => callGraphBasedHalIdent cg m0

/-! ### The reporter (lines 265-320) -/

/-- Decimal rendering of an integer written with `raw_ostream <<`. -/
def natToStr (n : Nat) : List Char := Nat.toDigits 10 n

/-- `raw_ostream <<` on a `bool` prints `1` or `0`. -/
def boolToStr (b : Bool) : List Char := if b then ['1'] else ['0']

/-- `llvm::DebugLoc::print` applied to the `getInlinedAt` chain: each frame
is `file:line[:col]`, with the rest of the chain in an `@[ ... ]` suffix.
This is LLVM library behaviour, consumed by `printDebugLoc` at line 280. -/
def dbgLocPrintChain : List LocFrame → List Char
  | [] => []
  | fr :: rest =>
      fr.file ++ [':'] ++ natToStr fr.line ++
        (if fr.col ≠ 0 then [':'] ++ natToStr fr.col else []) ++
        (match rest with
         | [] => []
         | _ :: _ => [' ', '@', '[', ' '] ++ dbgLocPrintChain rest ++ [' ', ']'])

/-- `printDebugLoc` (lines 265-283): nothing for a null `DebugLoc`;
otherwise `directory/file:line[:col]`, then the inlining chain wrapped in
`@[ ... ]` when `getInlinedAt` is set. -/
def printDebugLoc : Option DbgLoc → List Char
  | none => []
  | some dl =>
      dl.frame.dir ++ ['/'] ++ dl.frame.file ++ [':'] ++ natToStr dl.frame.line ++
        (if dl.frame.col ≠ 0 then [':'] ++ natToStr dl.frame.col else []) ++
        (match dl.inlinedAt with
         | [] => []
         | fr :: rest => [' ', '@', '[', ' '] ++ dbgLocPrintChain (fr :: rest) ++ [' ', ']'])

/-- One output line of `printFuncs` (lines 295-302): name, MMIO-instruction
location, `InDegree`, `TransClosureInDeg`, `IsHal2`.  `fname` supplies
`Node.first->getName()`, the symbol name of the function handle. -/
def renderLine (fname : Nat → List Char) (p : Nat × MMIOFunc) : List Char :=
  fname p.1 ++ [' '] ++ printDebugLoc p.2.mmioLoc ++ [' '] ++
    natToStr p.2.InDegree ++ [' '] ++ natToStr p.2.TransClosureInDeg ++ [' '] ++
    boolToStr p.2.IsHal2 ++ ['\n']

/-- One rendered section of the report. -/
structure ReportSection where
  title : List Char
  count : Nat
  entries : List (Nat × MMIOFunc)
  lines : List (List Char)
deriving DecidableEq

/-- `printFuncs` (lines 285-306): a titled section with the function count
(`# = MMIOFuncs.size()`) and one line per entry. -/
def printFuncs (fname : Nat → List Char) (funcs : List (Nat × MMIOFunc))
    (title : List Char) : ReportSection :=
  { title := title, count := funcs.length, entries := funcs,
    lines := funcs.map (renderLine fname) }

def titleApp : List Char :=
  ['A', 'p', 'p', 'l', 'i', 'c', 'a', 't', 'i', 'o', 'n', ' ',
   'M', 'M', 'I', 'O', ' ', 'f', 'u', 'n', 'c', 't', 'i', 'o', 'n', 's']

def titleHal : List Char :=
  ['H', 'a', 'l', ' ', 'M', 'M', 'I', 'O', ' ',
   'f', 'u', 'n', 'c', 't', 'i', 'o', 'n', 's']

/-- `printHALBypassResult` (lines 308-320): split the registry on `IsHal`
(the name-based flag) and render the two sections. -/
def printHALBypassResult (fname : Nat → List Char) (m : List (Nat × MMIOFunc)) :
    ReportSection × ReportSection :=
  let appFuncs := m.filter fun e => !e.2.IsHal
  let libHalFuncs := m.filter fun e => e.2.IsHal
  (printFuncs fname appFuncs titleApp, printFuncs fname libHalFuncs titleHal)

/-! ### Spec-side notions used by the claims -/

/-- Adding one direct-call edge `u → v` to the graph: one more call record
on node `u`. -/
def addCall : List CGNode → Nat → Nat → List CGNode
  | [], _, _ => []
  | nd :: rest, 0, v => { nd with calls := v :: nd.calls } :: rest
  | nd :: rest, u + 1, v => nd :: addCall rest u v

/-- Reachability through a nonempty path whose intermediate vertices are all
`< K`: the classical invariant of the `K`-outermost dynamic-programming
closure. -/
inductive ReachVia (A : Nat → Nat → Bool) : Nat → Nat → Nat → Prop where
  | base {K i j} : A i j = true → ReachVia A K i j
  | step {K i m j} : m < K → ReachVia A K i m → ReachVia A K m j → ReachVia A K i j

/-- The value pass `K` writes into cell `(a, b)`, in terms of the matrix at
the start of the pass. -/
def fwTarget (n K : Nat) (M0 : List Bool) (a b : Nat) : Bool :=
  mget n M0 a b || (mget n M0 a K && mget n M0 K b)

/-! ### Cell-level lemmas about the flat matrix -/

theorem flatIdx_lt {n a b : Nat} (ha : a < n) (hb : b < n) : a * n + b < n * n := by
  have h1 : a * n + b < a * n + n := Nat.add_lt_add_left hb _
  have h2 : a * n + n = (a + 1) * n := by ring
  have h3 : (a + 1) * n ≤ n * n := Nat.mul_le_mul_right n ha
  omega

theorem flatIdx_inj {n a b c d : Nat} (hb : b < n) (hd : d < n)
    (h : a * n + b = c * n + d) : a = c ∧ b = d := by
  have hn : 0 < n := Nat.lt_of_le_of_lt (Nat.zero_le b) hb
  have hb' : (a * n + b) % n = b := by
    rw [Nat.mul_comm a n, Nat.mul_add_mod]; exact Nat.mod_eq_of_lt hb
  have hd' : (c * n + d) % n = d := by
    rw [Nat.mul_comm c n, Nat.mul_add_mod]; exact Nat.mod_eq_of_lt hd
  have hbd : b = d := by rw [← hb', ← hd', h]
  refine ⟨?_, hbd⟩
  have : a * n = c * n := by omega
  exact Nat.eq_of_mul_eq_mul_right hn this

theorem mget_set_self {n : Nat} {M : List Bool} {a b : Nat} (v : Bool)
    (ha : a < n) (hb : b < n) (hlen : M.length = n * n) :
    mget n (M.set (a * n + b) v) a b = v := by
  unfold mget
  rw [List.getD_eq_getElem?_getD, List.getElem?_set_self (by rw [hlen]; exact flatIdx_lt ha hb)]
  rfl

theorem mget_set_other {n : Nat} {M : List Bool} {a b c d : Nat} (v : Bool)
    (hb : b < n) (hd : d < n) (hne : ¬(c = a ∧ d = b)) :
    mget n (M.set (a * n + b) v) c d = mget n M c d := by
  unfold mget
  rw [List.getD_eq_getElem?_getD, List.getD_eq_getElem?_getD,
    List.getElem?_set_ne]
  intro h
  exact hne ⟨((flatIdx_inj hb hd h).1).symm, ((flatIdx_inj hb hd h).2).symm⟩

theorem mget_replicate (n m a b : Nat) : mget n (List.replicate m false) a b = false := by
  unfold mget
  rw [List.getD_eq_getElem?_getD]
  rcases Nat.lt_or_ge (a * n + b) m with h | h
  · rw [List.getElem?_replicate_of_lt h]; rfl
  · rw [List.getElem?_eq_none (by simpa using h)]; rfl

/-! ### The in-place pass computes `fwTarget` -/

theorem fwTarget_col (n K : Nat) (M0 : List Bool) (a : Nat) :
    fwTarget n K M0 a K = mget n M0 a K := by
  unfold fwTarget
  cases h : mget n M0 a K <;> simp [h]

theorem fwTarget_row (n K : Nat) (M0 : List Bool) (b : Nat) :
    fwTarget n K M0 K b = mget n M0 K b := by
  unfold fwTarget
  cases h : mget n M0 K b <;> cases h2 : mget n M0 K K <;> simp [h, h2]

/-- Invariant of the in-place double loop of pass `K`: cells in `P` hold the
pass's target value, all other cells are untouched.  Because row `K` and
column `K` are fixed points of the pass, the invariant is stable under
processing any cell, in any order. -/
def FWGood (n K : Nat) (M0 M : List Bool) (P : Nat → Nat → Prop) : Prop :=
  M.length = M0.length ∧
    ∀ a b, a < n → b < n →
      (P a b → mget n M a b = fwTarget n K M0 a b) ∧
      (¬P a b → mget n M a b = mget n M0 a b)

theorem fwGood_congr {n K : Nat} {M0 M : List Bool} {P Q : Nat → Nat → Prop}
    (hPQ : ∀ a b, P a b ↔ Q a b) (h : FWGood n K M0 M P) : FWGood n K M0 M Q := by
  refine ⟨h.1, fun a b ha hb => ?_⟩
  refine ⟨fun hq => (h.2 a b ha hb).1 ((hPQ a b).mpr hq),
          fun hq => (h.2 a b ha hb).2 (fun hp => hq ((hPQ a b).mp hp))⟩

theorem fwGood_read_col {n K : Nat} {M0 M : List Bool} {P : Nat → Nat → Prop}
    (h : FWGood n K M0 M P) (a : Nat) (ha : a < n) (hK : K < n) :
    mget n M a K = mget n M0 a K := by
  by_cases hp : P a K
  · rw [(h.2 a K ha hK).1 hp, fwTarget_col]
  · exact (h.2 a K ha hK).2 hp

theorem fwGood_read_row {n K : Nat} {M0 M : List Bool} {P : Nat → Nat → Prop}
    (h : FWGood n K M0 M P) (b : Nat) (hb : b < n) (hK : K < n) :
    mget n M K b = mget n M0 K b := by
  by_cases hp : P K b
  · rw [(h.2 K b hK hb).1 hp, fwTarget_row]
  · exact (h.2 K b hK hb).2 hp

theorem fwGood_update {n K I J : Nat} {M0 M : List Bool} {P : Nat → Nat → Prop}
    (hlen0 : M0.length = n * n) (hI : I < n) (hJ : J < n) (hK : K < n)
    (hg : FWGood n K M0 M P) :
    FWGood n K M0 (fwUpdate n K I J M) (fun a b => P a b ∨ (a = I ∧ b = J)) := by
  have hlen : M.length = n * n := hg.1.trans hlen0
  have hIK : mget n M I K = mget n M0 I K := fwGood_read_col hg I hI hK
  have hKJ : mget n M K J = mget n M0 K J := fwGood_read_row hg J hJ hK
  have hval : (mget n M I J || (mget n M I K && mget n M K J)) = fwTarget n K M0 I J := by
    rw [hIK, hKJ]
    by_cases hp : P I J
    · rw [(hg.2 I J hI hJ).1 hp]
      unfold fwTarget
      cases mget n M0 I J <;> cases mget n M0 I K <;> cases mget n M0 K J <;> rfl
    · rw [(hg.2 I J hI hJ).2 hp]; rfl
  constructor
  · unfold fwUpdate; rw [List.length_set]; exact hg.1
  · intro a b ha hb
    unfold fwUpdate
    by_cases hab : a = I ∧ b = J
    · rcases hab with ⟨rfl, rfl⟩
      rw [mget_set_self _ hI hJ hlen, hval]
      exact ⟨fun _ => rfl, fun hn => absurd (Or.inr ⟨rfl, rfl⟩) hn⟩
    · rw [mget_set_other _ hJ hb hab]
      refine ⟨fun hpq => ?_, fun hnp => ?_⟩
      · rcases hpq with hp | hij
        · exact (hg.2 a b ha hb).1 hp
        · exact absurd hij hab
      · exact (hg.2 a b ha hb).2 (fun hp => hnp (Or.inl hp))

theorem fwGood_foldJ {n K I : Nat} {M0 : List Bool}
    (hlen0 : M0.length = n * n) (hI : I < n) (hK : K < n) :
    ∀ (Js : List Nat) (M : List Bool) (P : Nat → Nat → Prop),
      (∀ j ∈ Js, j < n) → FWGood n K M0 M P →
      FWGood n K M0 (Js.foldl (fun M J => fwUpdate n K I J M) M)
        (fun a b => P a b ∨ (a = I ∧ b ∈ Js)) := by
  intro Js
  induction Js with
  | nil =>
      intro M P _ hg
      exact fwGood_congr (fun a b => by simp) hg
  | cons J Js ih =>
      intro M P hJs hg
      have hJ : J < n := hJs J (List.mem_cons_self _ _)
      have h1 := fwGood_update hlen0 hI hJ hK hg
      have h2 := ih (fwUpdate n K I J M) _ (fun j hj => hJs j (List.mem_cons_of_mem _ hj)) h1
      refine fwGood_congr (fun a b => ?_) h2
      simp only [List.mem_cons]
      tauto

theorem fwGood_foldI {n K : Nat} {M0 : List Bool}
    (hlen0 : M0.length = n * n) (hK : K < n) :
    ∀ (Is : List Nat) (M : List Bool) (P : Nat → Nat → Prop),
      (∀ i ∈ Is, i < n) → FWGood n K M0 M P →
      FWGood n K M0 (Is.foldl (fun M I => fwPassJ n K I M) M)
        (fun a b => P a b ∨ (a ∈ Is ∧ b < n)) := by
  intro Is
  induction Is with
  | nil =>
      intro M P _ hg
      exact fwGood_congr (fun a b => by simp) hg
  | cons I Is ih =>
      intro M P hIs hg
      have hI : I < n := hIs I (List.mem_cons_self _ _)
      have h1 : FWGood n K M0 (fwPassJ n K I M) (fun a b => P a b ∨ (a = I ∧ b ∈ List.range n)) :=
        fwGood_foldJ hlen0 hI hK (List.range n) M P (fun j hj => List.mem_range.mp hj) hg
      have h2 := ih (fwPassJ n K I M) _ (fun i hi => hIs i (List.mem_cons_of_mem _ hi)) h1
      refine fwGood_congr (fun a b => ?_) h2
      simp only [List.mem_cons, List.mem_range]
      tauto

/-- The whole in-place pass `K` (the `I`/`J` double loop) rewrites every
in-range cell to `fwTarget`, i.e. it behaves as if all updates read the
matrix from the start of the pass. -/
theorem fwPassI_spec (n K : Nat) (M : List Bool) (hlen : M.length = n * n) (hK : K < n) :
    (fwPassI n K M).length = n * n ∧
      ∀ a b, a < n → b < n → mget n (fwPassI n K M) a b = fwTarget n K M a b := by
  have h0 : FWGood n K M M (fun _ _ => False) :=
    ⟨rfl, fun a b _ _ => ⟨False.elim, fun _ => rfl⟩⟩
  have h := fwGood_foldI hlen hK (List.range n) M _ (fun i hi => List.mem_range.mp hi) h0
  refine ⟨h.1.trans hlen, fun a b ha hb => ?_⟩
  exact (h.2 a b ha hb).1 (Or.inr ⟨List.mem_range.mpr ha, hb⟩)

/-- Two `n × n` matrices with the same cells are the same flat list. -/
theorem matrix_ext {n : Nat} {M M' : List Bool}
    (hl : M.length = n * n) (hl' : M'.length = n * n)
    (h : ∀ a b, a < n → b < n → mget n M a b = mget n M' a b) : M = M' := by
  apply List.ext_getElem?
  intro p
  rcases Nat.lt_or_ge p (n * n) with hp | hp
  · have hn : 0 < n := by
      rcases Nat.eq_zero_or_pos n with h0 | h0
      · subst h0; omega
      · exact h0
    have ha : p / n < n := Nat.div_lt_iff_lt_mul hn |>.mpr hp
    have hb : p % n < n := Nat.mod_lt _ hn
    have hdecomp : p / n * n + p % n = p := by
      rw [Nat.mul_comm]
      exact Nat.div_add_mod p n
    have := h (p / n) (p % n) ha hb
    unfold mget at this
    rw [List.getD_eq_getElem?_getD, List.getD_eq_getElem?_getD, hdecomp] at this
    cases hM : M[p]? with
    | none =>
        exfalso
        have := List.getElem?_eq_none_iff.mp hM
        omega
    | some x =>
        cases hM' : M'[p]? with
        | none =>
            exfalso
            have := List.getElem?_eq_none_iff.mp hM'
            omega
        | some y =>
            rw [hM, hM'] at this
            simp only [Option.getD_some] at this
            rw [this]
  · rw [List.getElem?_eq_none (by omega), List.getElem?_eq_none (by omega)]

/-! ### The triple loop computes bounded-intermediate reachability -/

theorem reachVia_zero {A : Nat → Nat → Bool} {i j : Nat} :
    ReachVia A 0 i j ↔ A i j = true := by
  constructor
  · intro h
    cases h with
    | base h => exact h
    | step hm _ _ => omega
  · exact ReachVia.base

theorem reachVia_mono {A : Nat → Nat → Bool} {K K' i j : Nat} (hK : K ≤ K') :
    ReachVia A K i j → ReachVia A K' i j := by
  intro h
  induction h with
  | base h => exact .base h
  | step hm _ _ ih1 ih2 => exact .step (Nat.lt_of_lt_of_le hm hK) ih1 ih2

theorem reachVia_succ {A : Nat → Nat → Bool} {K i j : Nat} :
    ReachVia A (K + 1) i j ↔
      ReachVia A K i j ∨ (ReachVia A K i K ∧ ReachVia A K K j) := by
  constructor
  · intro h
    induction h with
    | base h => exact Or.inl (.base h)
    | step hm _ _ ih1 ih2 =>
        rcases Nat.lt_succ_iff_lt_or_eq.mp hm with hm' | rfl
        · rcases ih1 with h1 | ⟨h1a, h1b⟩ <;> rcases ih2 with h2 | ⟨h2a, h2b⟩
          · exact Or.inl (.step hm' h1 h2)
          · exact Or.inr ⟨.step hm' h1 h2a, h2b⟩
          · exact Or.inr ⟨h1a, .step hm' h1b h2⟩
          · exact Or.inr ⟨h1a, h2b⟩
        · exact Or.inr ⟨ih1.elim id (fun h => h.1), ih2.elim id (fun h => h.2)⟩
  · rintro (h | ⟨h1, h2⟩)
    · exact reachVia_mono (Nat.le_succ K) h
    · exact .step (Nat.lt_succ_self K) (reachVia_mono (Nat.le_succ K) h1)
        (reachVia_mono (Nat.le_succ K) h2)

theorem fwFold_correct (n : Nat) (A : Nat → Nat → Bool) (MA : List Bool)
    (hlen : MA.length = n * n)
    (hA : ∀ a b, a < n → b < n → mget n MA a b = A a b) :
    ∀ KK, KK ≤ n →
      ((List.range KK).foldl (fun M K => fwPassI n K M) MA).length = n * n ∧
      ∀ a b, a < n → b < n →
        (mget n ((List.range KK).foldl (fun M K => fwPassI n K M) MA) a b = true ↔
          ReachVia A KK a b) := by
  intro KK
  induction KK with
  | zero =>
      intro _
      refine ⟨hlen, fun a b ha hb => ?_⟩
      rw [List.range_zero, List.foldl_nil, hA a b ha hb]
      exact reachVia_zero.symm
  | succ KK ih =>
      intro hKK
      have hKn : KK < n := Nat.lt_of_succ_le hKK
      obtain ⟨ihlen, ihiff⟩ := ih (Nat.le_of_lt hKn)
      rw [List.range_succ, List.foldl_append, List.foldl_cons, List.foldl_nil]
      obtain ⟨plen, pcells⟩ :=
        fwPassI_spec n KK ((List.range KK).foldl (fun M K => fwPassI n K M) MA) ihlen hKn
      refine ⟨plen, fun a b ha hb => ?_⟩
      rw [pcells a b ha hb]
      unfold fwTarget
      rw [Bool.or_eq_true, Bool.and_eq_true,
        ihiff a b ha hb, ihiff a KK ha hKn, ihiff KK b hKn hb]
      exact reachVia_succ.symm

theorem reachVia_top_iff_transGen (n : Nat) (A : Nat → Nat → Bool)
    (hsupp : ∀ i j, A i j = true → i < n ∧ j < n) (i j : Nat) :
    ReachVia A n i j ↔ Relation.TransGen (fun a b => A a b = true) i j := by
  constructor
  · intro h
    induction h with
    | base h => exact .single h
    | step _ _ _ ih1 ih2 => exact ih1.trans ih2
  · intro h
    induction h with
    | single h => exact .base h
    | tail _ h2 ih => exact .step (hsupp _ _ h2).1 ih (.base h2)

/-- Full correctness of the triple loop (lines 151-159): starting from a
matrix realising the edge function `A`, the final matrix holds `true` at
`(a, b)` exactly when `b` is reachable from `a` through one or more
`A`-edges. -/
theorem fwClosure_correct (n : Nat) (A : Nat → Nat → Bool) (MA : List Bool)
    (hlen : MA.length = n * n)
    (hA : ∀ a b, a < n → b < n → mget n MA a b = A a b)
    (hsupp : ∀ i j, A i j = true → i < n ∧ j < n) :
    (fwClosure n MA).length = n * n ∧
      ∀ a b, a < n → b < n →
        (mget n (fwClosure n MA) a b = true ↔
          Relation.TransGen (fun a b => A a b = true) a b) := by
  obtain ⟨hl, hc⟩ := fwFold_correct n A MA hlen hA n (Nat.le_refl n)
  exact ⟨hl, fun a b ha hb =>
    (hc a b ha hb).trans (reachVia_top_iff_transGen n A hsupp a b)⟩

/-! ### The initial matrix realises the call-graph adjacency -/

theorem adjOf_lt_left {cg : List CGNode} {i j : Nat} (h : adjOf cg i j = true) :
    i < cg.length := by
  unfold adjOf at h
  cases hg : cg.get? i with
  | none => rw [hg] at h; exact absurd h (by simp)
  | some nd =>
      by_contra hge
      have hnone : cg.get? i = none := List.get?_eq_none.mpr (by omega)
      rw [hnone] at hg
      exact Option.noConfusion hg

theorem adjOf_supp {cg : List CGNode} (hwf : CGWellFormed cg) :
    ∀ i j, adjOf cg i j = true → i < numNodes cg ∧ j < numNodes cg := by
  intro i j h
  have hi : i < cg.length := adjOf_lt_left h
  refine ⟨Nat.lt_succ_of_lt hi, ?_⟩
  unfold adjOf at h
  cases hg : cg.get? i with
  | none => rw [hg] at h; exact absurd h (by simp)
  | some nd =>
      rw [hg] at h
      have hmem : nd ∈ cg := by
        rw [List.get?_eq_getElem?] at hg
        exact List.getElem?_mem hg
      exact hwf nd hmem j (List.elem_iff.mp h)

theorem initAdj_inner {n i : Nat} (hi : i < n) :
    ∀ (js : List Nat) (M : List Bool), M.length = n * n → (∀ j ∈ js, j < n) →
      (js.foldl (fun M j => M.set (i * n + j) true) M).length = n * n ∧
      ∀ a b, a < n → b < n →
        (mget n (js.foldl (fun M j => M.set (i * n + j) true) M) a b = true ↔
          (mget n M a b = true ∨ (a = i ∧ b ∈ js))) := by
  intro js
  induction js with
  | nil =>
      intro M hlen _
      exact ⟨hlen, fun a b _ _ => by simp⟩
  | cons j js ih =>
      intro M hlen hjs
      have hj : j < n := hjs j (List.mem_cons_self _ _)
      rw [List.foldl_cons]
      obtain ⟨ihlen, ihiff⟩ := ih (M.set (i * n + j) true)
        (by rw [List.length_set]; exact hlen)
        (fun x hx => hjs x (List.mem_cons_of_mem _ hx))
      refine ⟨ihlen, fun a b ha hb => ?_⟩
      rw [ihiff a b ha hb]
      by_cases hab : a = i ∧ b = j
      · rcases hab with ⟨rfl, rfl⟩
        rw [mget_set_self _ hi hj hlen]
        simp [List.mem_cons]
      · rw [mget_set_other _ hj hb (by tauto)]
        simp only [List.mem_cons]
        constructor
        · rintro (h | ⟨rfl, h⟩)
          · exact Or.inl h
          · exact Or.inr ⟨rfl, Or.inr h⟩
        · rintro (h | ⟨rfl, rfl | h⟩)
          · exact Or.inl h
          · exact absurd ⟨rfl, rfl⟩ hab
          · exact Or.inr ⟨rfl, h⟩

theorem initAdj_outer {cg : List CGNode} (hwf : CGWellFormed cg) :
    ∀ (is : List Nat) (M : List Bool),
      M.length = numNodes cg * numNodes cg → (∀ i ∈ is, i < cg.length) →
      (is.foldl
          (fun M i =>
            match cg.get? i with
            | some nd => nd.calls.foldl (fun M j => M.set (i * numNodes cg + j) true) M
            | none => M)
          M).length = numNodes cg * numNodes cg ∧
      ∀ a b, a < numNodes cg → b < numNodes cg →
        (mget (numNodes cg)
            (is.foldl
              (fun M i =>
                match cg.get? i with
                | some nd => nd.calls.foldl (fun M j => M.set (i * numNodes cg + j) true) M
                | none => M)
              M) a b = true ↔
          (mget (numNodes cg) M a b = true ∨ (a ∈ is ∧ adjOf cg a b = true))) := by
  intro is
  induction is with
  | nil =>
      intro M hlen _
      exact ⟨hlen, fun a b _ _ => by simp⟩
  | cons i is ih =>
      intro M hlen his
      have hi : i < cg.length := his i (List.mem_cons_self _ _)
      have hin : i < numNodes cg := Nat.lt_succ_of_lt hi
      rw [List.foldl_cons]
      have hnd : cg.get? i = some cg[i] := by
        rw [List.get?_eq_getElem?]
        exact List.getElem?_eq_getElem hi
      rw [hnd]
      have hmem : cg[i] ∈ cg := List.getElem_mem hi
      obtain ⟨ilen, iiff⟩ := initAdj_inner hin cg[i].calls M hlen
        (fun j hj => hwf cg[i] hmem j hj)
      obtain ⟨olen, oiff⟩ := ih _ ilen (fun x hx => his x (List.mem_cons_of_mem _ hx))
      refine ⟨olen, fun a b ha hb => ?_⟩
      rw [oiff a b ha hb, iiff a b ha hb]
      have hadj : ∀ h : a = i, (adjOf cg a b = true ↔ b ∈ cg[i].calls) := by
        rintro rfl
        unfold adjOf
        rw [hnd]
        exact ⟨fun h => List.elem_iff.mp h, fun h => List.elem_iff.mpr h⟩
      simp only [List.mem_cons]
      constructor
      · rintro ((h | ⟨rfl, h⟩) | ⟨h, hadj'⟩)
        · exact Or.inl h
        · exact Or.inr ⟨Or.inl rfl, (hadj rfl).mpr h⟩
        · exact Or.inr ⟨Or.inr h, hadj'⟩
      · rintro (h | ⟨rfl | h, hadj'⟩)
        · exact Or.inl (Or.inl h)
        · exact Or.inl (Or.inr ⟨rfl, (hadj rfl).mp hadj'⟩)
        · exact Or.inr ⟨h, hadj'⟩

/-- The matrix built at lines 138-149 realises the adjacency of the graph. -/
theorem initAdj_spec (cg : List CGNode) (hwf : CGWellFormed cg) :
    (initAdj cg).length = numNodes cg * numNodes cg ∧
      ∀ a b, a < numNodes cg → b < numNodes cg →
        mget (numNodes cg) (initAdj cg) a b = adjOf cg a b := by
  obtain ⟨hl, hiff⟩ := initAdj_outer hwf (List.range cg.length)
    (List.replicate (numNodes cg * numNodes cg) false) (by rw [List.length_replicate])
    (fun i hi => List.mem_range.mp hi)
  unfold initAdj
  refine ⟨hl, fun a b ha hb => ?_⟩
  rw [Bool.eq_iff_iff, hiff a b ha hb, mget_replicate]
  simp only [Bool.false_eq_true, false_or, List.mem_range]
  exact ⟨fun h => h.2, fun h => ⟨adjOf_lt_left h, h⟩⟩

/-! ### Counting helpers -/

theorem sum_indicator_eq_length_filter (p : Nat → Bool) (l : List Nat) :
    (l.map (fun i => if p i then 1 else 0)).sum = (l.filter p).length := by
  induction l with
  | nil => rfl
  | cons x l ih =>
      rw [List.map_cons, List.sum_cons, List.filter_cons]
      cases h : p x <;> simp [ih, Nat.add_comm]

theorem length_filter_mono (l : List Nat) (p q : Nat → Bool)
    (h : ∀ i ∈ l, p i = true → q i = true) :
    (l.filter p).length ≤ (l.filter q).length := by
  induction l with
  | nil => exact Nat.le_refl _
  | cons x l ih =>
      have ih' := ih (fun i hi => h i (List.mem_cons_of_mem _ hi))
      rw [List.filter_cons, List.filter_cons]
      cases hp : p x with
      | false =>
          cases hq : q x <;> simp <;> omega
      | true =>
          rw [h x (List.mem_cons_self _ _) hp]
          simpa using ih'

/-! ### Shape of the degree-writing stages -/

theorem nodeIdxOf_lt {cg : List CGNode} {f idx : Nat}
    (h : nodeIdxOf cg f = some idx) : idx < cg.length := by
  induction cg generalizing idx with
  | nil => exact Option.noConfusion h
  | cons nd rest ih =>
      unfold nodeIdxOf at h
      by_cases hf : nd.func == some f
      · rw [if_pos hf] at h
        cases h
        simp
      · rw [if_neg hf] at h
        cases hrest : nodeIdxOf rest f with
        | none => rw [hrest] at h; exact Option.noConfusion h
        | some k =>
            rw [hrest] at h
            cases h
            have := ih hrest
            simp
            omega

theorem setTransClosure_mem {inDeg : Nat → Nat} {cg : List CGNode} :
    ∀ {m out : List (Nat × MMIOFunc)}, setTransClosure inDeg cg m = some out →
      ∀ p ∈ out, ∃ q idx, q ∈ m ∧ p.1 = q.1 ∧ nodeIdxOf cg q.1 = some idx ∧
        p.2 = { q.2 with TransClosureInDeg := inDeg idx } := by
  intro m
  induction m with
  | nil =>
      intro out h p hp
      cases h
      exact absurd hp (List.not_mem_nil p)
  | cons e rest ih =>
      intro out h p hp
      obtain ⟨f, mf⟩ := e
      unfold setTransClosure at h
      cases hidx : nodeIdxOf cg f with
      | none => rw [hidx] at h; exact Option.noConfusion h
      | some idx =>
          rw [hidx] at h
          cases hrest : setTransClosure inDeg cg rest with
          | none => rw [hrest] at h; exact Option.noConfusion h
          | some mtail =>
              rw [hrest] at h
              cases h
              rcases List.mem_cons.mp hp with rfl | htail
              · exact ⟨(f, mf), idx, List.mem_cons_self _ _, rfl, hidx, rfl⟩
              · obtain ⟨q, idx', hq, h1, h2, h3⟩ := ih hrest p htail
                exact ⟨q, idx', List.mem_cons_of_mem _ hq, h1, h2, h3⟩

theorem setTransClosure_get {inDeg : Nat → Nat} {cg : List CGNode} :
    ∀ {m out : List (Nat × MMIOFunc)}, setTransClosure inDeg cg m = some out →
      ∀ k p, out.get? k = some p → ∃ q idx, m.get? k = some q ∧ p.1 = q.1 ∧
        nodeIdxOf cg q.1 = some idx ∧
        p.2 = { q.2 with TransClosureInDeg := inDeg idx } := by
  intro m
  induction m with
  | nil =>
      intro out h k p hp
      cases h
      rw [List.get?_eq_getElem?] at hp
      exact Option.noConfusion ((List.getElem?_eq_none (by simp)).symm.trans hp)
  | cons e rest ih =>
      intro out h k p hp
      obtain ⟨f, mf⟩ := e
      unfold setTransClosure at h
      cases hidx : nodeIdxOf cg f with
      | none => rw [hidx] at h; exact Option.noConfusion h
      | some idx =>
          rw [hidx] at h
          cases hrest : setTransClosure inDeg cg rest with
          | none => rw [hrest] at h; exact Option.noConfusion h
          | some mtail =>
              rw [hrest] at h
              cases h
              cases k with
              | zero =>
                  cases hp
                  exact ⟨(f, mf), idx, rfl, rfl, hidx, rfl⟩
              | succ k =>
                  obtain ⟨q, idx', hq, h1, h2, h3⟩ := ih hrest k p hp
                  exact ⟨q, idx', hq, h1, h2, h3⟩

/-! ### Adding one edge -/

theorem addCall_length (cg : List CGNode) (u v : Nat) :
    (addCall cg u v).length = cg.length := by
  induction cg generalizing u with
  | nil => rfl
  | cons nd rest ih =>
      cases u with
      | zero => rfl
      | succ u => simpa [addCall] using ih u

theorem addCall_get? (cg : List CGNode) (u v i : Nat) :
    (addCall cg u v).get? i =
      if i = u then (cg.get? i).map (fun nd => { nd with calls := v :: nd.calls })
      else cg.get? i := by
  induction cg generalizing u i with
  | nil => simp [addCall]
  | cons nd rest ih =>
      cases u with
      | zero =>
          cases i with
          | zero => rfl
          | succ i => simp [addCall]
      | succ u =>
          cases i with
          | zero => simp [addCall]
          | succ i =>
              have := ih u i
              simpa [addCall, Nat.succ_inj] using this

theorem addCall_numNodes (cg : List CGNode) (u v : Nat) :
    numNodes (addCall cg u v) = numNodes cg := by
  unfold numNodes
  rw [addCall_length]

theorem addCall_wf {cg : List CGNode} (hwf : CGWellFormed cg) {u v : Nat}
    (hv : v < numNodes cg) : CGWellFormed (addCall cg u v) := by
  intro nd hnd j hj
  rw [addCall_numNodes]
  have : ∃ i, (addCall cg u v).get? i = some nd := by
    obtain ⟨i, hi, rfl⟩ := List.getElem_of_mem hnd
    exact ⟨i, by rw [List.get?_eq_getElem?]; exact List.getElem?_eq_getElem hi⟩
  obtain ⟨i, hi⟩ := this
  rw [addCall_get? cg u v i] at hi
  by_cases hu : i = u
  · rw [if_pos hu] at hi
    cases hg : cg.get? i with
    | none => rw [hg] at hi; exact Option.noConfusion hi
    | some nd0 =>
        rw [hg] at hi
        cases hi
        rcases List.mem_cons.mp hj with rfl | hj'
        · exact hv
        · exact hwf nd0 (List.getElem?_mem (by rw [← List.get?_eq_getElem?]; exact hg)) j hj'
  · rw [if_neg hu] at hi
    exact hwf nd (List.getElem?_mem (by rw [← List.get?_eq_getElem?]; exact hi)) j hj

theorem addCall_nodeIdxOf (cg : List CGNode) (u v f : Nat) :
    nodeIdxOf (addCall cg u v) f = nodeIdxOf cg f := by
  induction cg generalizing u with
  | nil => rfl
  | cons nd rest ih =>
      cases u with
      | zero => rfl
      | succ u =>
          unfold addCall nodeIdxOf
          rw [ih u]

theorem addCall_adjOf_mono {cg : List CGNode} {u v i j : Nat}
    (h : adjOf cg i j = true) : adjOf (addCall cg u v) i j = true := by
  unfold adjOf at h ⊢
  rw [addCall_get? cg u v i]
  by_cases hu : i = u
  · rw [if_pos hu]
    cases hg : cg.get? i with
    | none => rw [hg] at h; exact absurd h (by simp)
    | some nd =>
        rw [hg] at h
        simp only [Option.map]
        rcases List.elem_iff.mp h with hmem
        exact List.elem_iff.mpr (List.mem_cons_of_mem _ hmem)
  · rw [if_neg hu]
    exact h

/-! ### Shape of the in-degree stage -/

theorem bump_foldl_eq :
    ∀ (ts : List (Option Nat)) (m : List (Nat × MMIOFunc)),
      ts.foldl bumpInDegree m =
        m.map (fun e => (e.1, { e.2 with InDegree := e.2.InDegree + ts.count (some e.1) })) := by
  intro ts
  induction ts with
  | nil =>
      intro m
      rw [List.foldl_nil]
      conv_lhs => rw [← List.map_id m]
      apply List.map_eq_map_iff.mpr
      intro e _
      simp
  | cons t ts ih =>
      intro m
      rw [List.foldl_cons, ih, bumpInDegree, List.map_map]
      apply List.map_eq_map_iff.mpr
      intro e _
      simp only [Function.comp]
      by_cases ht : t == some e.1
      · rw [if_pos ht]
        have hc : List.count (some e.1) (t :: ts) = List.count (some e.1) ts + 1 := by
          rw [List.count_cons, if_pos ht]
        rw [hc]
        show (e.1, { e.2 with InDegree := e.2.InDegree + 1 + List.count (some e.1) ts }) =
          (e.1, { e.2 with InDegree := e.2.InDegree + (List.count (some e.1) ts + 1) })
        rw [Nat.add_right_comm, Nat.add_assoc]
      · rw [if_neg ht]
        have hc : List.count (some e.1) (t :: ts) = List.count (some e.1) ts := by
          rw [List.count_cons, if_neg ht, Nat.add_zero]
        rw [hc]

theorem computeCallGraphInDegrees_eq (cg : List CGNode) (m : List (Nat × MMIOFunc)) :
    computeCallGraphInDegrees cg m =
      m.map (fun e => (e.1, { e.2 with InDegree := (allCallTargets cg).count (some e.1) })) := by
  unfold computeCallGraphInDegrees
  rw [bump_foldl_eq, List.map_map]
  apply List.map_eq_map_iff.mpr
  intro e _
  simp [Function.comp]

/-! ### Field invariants along the pipeline -/

theorem mkMMIOFunc_fields {pm : PMMIOFunc} {di : Option DebugInfo} {mf : MMIOFunc}
    (h : mkMMIOFunc pm di = some mf) :
    mf.IsHal2 = false ∧ mf.InDegree = 0 ∧ mf.TransClosureInDeg = 0 ∧
      mf.toPMMIOFunc = pm := by
  cases di with
  | none => exact Option.noConfusion h
  | some d =>
      unfold mkMMIOFunc at h
      cases h
      exact ⟨rfl, rfl, rfl, rfl⟩

theorem buildMap_isHal2 {dbgMeta : Nat → Option DebugInfo} :
    ∀ {fns : List (Nat × PMMIOFunc)} {m : List (Nat × MMIOFunc)},
      buildMap fns dbgMeta = some m → ∀ p ∈ m, p.2.IsHal2 = false := by
  intro fns
  induction fns with
  | nil =>
      intro m h p hp
      cases h
      exact absurd hp (List.not_mem_nil p)
  | cons e rest ih =>
      intro m h p hp
      obtain ⟨f, pm⟩ := e
      unfold buildMap at h
      cases hmk : mkMMIOFunc pm (dbgMeta f) with
      | none => rw [hmk] at h; exact Option.noConfusion h
      | some mf =>
          rw [hmk] at h
          cases hrest : buildMap rest dbgMeta with
          | none => rw [hrest] at h; exact Option.noConfusion h
          | some mtail =>
              rw [hrest] at h
              cases h
              rcases List.mem_cons.mp hp with rfl | htail
              · exact (mkMMIOFunc_fields hmk).1
              · exact ih hrest p htail

theorem enrichDegrees_isHal2 {cg : List CGNode} {m0 m2 : List (Nat × MMIOFunc)}
    (h0 : ∀ p ∈ m0, p.2.IsHal2 = false)
    (h : enrichDegrees cg m0 = some m2) : ∀ p ∈ m2, p.2.IsHal2 = false := by
  intro p hp
  unfold enrichDegrees computeCallGraphTransClosure at h
  obtain ⟨q, idx, hq, _, _, hval⟩ := setTransClosure_mem h p hp
  rw [computeCallGraphInDegrees_eq] at hq
  obtain ⟨e, he, rfl⟩ := List.mem_map.mp hq
  rw [hval]
  exact h0 e he

/-! ### Facts about the directory-inference stage -/

theorem halDirsOf_mem (m : List (Nat × MMIOFunc)) (d : List Char) :
    d ∈ halDirsOf m ↔ ∃ g ∈ m, g.2.Dirname = d ∧ 10 ≤ g.2.TransClosureInDeg := by
  unfold halDirsOf
  rw [List.mem_map]
  constructor
  · rintro ⟨g, hg, rfl⟩
    obtain ⟨hgm, hdeg⟩ := List.mem_filter.mp hg
    exact ⟨g, hgm, rfl, by simpa using hdeg⟩
  · rintro ⟨g, hgm, rfl, hdeg⟩
    exact ⟨g, List.mem_filter.mpr ⟨hgm, by simpa using hdeg⟩, rfl⟩

theorem applyHalDirs_entry (m : List (Nat × MMIOFunc)) (e : Nat × MMIOFunc) :
    (if (halDirsOf m).contains e.2.Dirname then (e.1, { e.2 with IsHal2 := true }) else e).1
        = e.1 ∧
    (if (halDirsOf m).contains e.2.Dirname then (e.1, { e.2 with IsHal2 := true }) else e).2.Dirname
        = e.2.Dirname ∧
    (if (halDirsOf m).contains e.2.Dirname then (e.1, { e.2 with IsHal2 := true }) else e).2.TransClosureInDeg
        = e.2.TransClosureInDeg ∧
    (if (halDirsOf m).contains e.2.Dirname then (e.1, { e.2 with IsHal2 := true }) else e).2.InDegree
        = e.2.InDegree ∧
    (if (halDirsOf m).contains e.2.Dirname then (e.1, { e.2 with IsHal2 := true }) else e).2.IsHal
        = e.2.IsHal := by
  by_cases h : (halDirsOf m).contains e.2.Dirname
  · rw [if_pos h]
    exact ⟨rfl, rfl, rfl, rfl, rfl⟩
  · rw [if_neg h]
    exact ⟨rfl, rfl, rfl, rfl, rfl⟩

/-! ### The substring check is infix occurrence -/

theorem startsWithStr_iff : ∀ needle hay : List Char,
    startsWithStr needle hay = true ↔ needle <+: hay := by
  intro needle
  induction needle with
  | nil =>
      intro hay
      simp [startsWithStr]
  | cons a as ih =>
      intro hay
      cases hay with
      | nil =>
          constructor
          · intro h
            exact absurd h (by simp [startsWithStr])
          · intro h
            have := List.prefix_nil.mp h
            exact absurd this (by simp)
      | cons b bs =>
          rw [show startsWithStr (a :: as) (b :: bs) = (a == b && startsWithStr as bs) from rfl,
            Bool.and_eq_true, List.cons_prefix_cons, ih bs]
          simp [beq_iff_eq]

theorem containsStr_iff (needle : List Char) : ∀ hay : List Char,
    containsStr needle hay = true ↔ needle <:+: hay := by
  intro hay
  induction hay with
  | nil =>
      rw [show containsStr needle [] = needle.isEmpty from rfl]
      rw [List.infix_nil]
      cases needle <;> simp
  | cons c rest ih =>
      rw [show containsStr needle (c :: rest) =
            (startsWithStr needle (c :: rest) || containsStr needle rest) from rfl,
        Bool.or_eq_true, startsWithStr_iff, ih, List.infix_cons_iff]

theorem containsStr_false_iff (needle hay : List Char) :
    containsStr needle hay = false ↔ ¬needle <:+: hay := by
  rw [← containsStr_iff]
  cases containsStr needle hay <;> simp

theorem length_filter_split (m : List (Nat × MMIOFunc)) :
    (m.filter fun e => !e.2.IsHal).length + (m.filter fun e => e.2.IsHal).length
      = m.length := by
  induction m with
  | nil => rfl
  | cons e rest ih =>
      rw [List.filter_cons, List.filter_cons]
      cases h : e.2.IsHal
      · rw [if_pos (show (!false) = true from rfl),
          if_neg (show ¬false = true from Bool.false_ne_true),
          List.length_cons, List.length_cons]
        omega
      · rw [if_neg (show ¬(!true) = true from Bool.false_ne_true),
          if_pos (show true = true from rfl),
          List.length_cons, List.length_cons]
        omega

/-! ## The claims -/

/-- C4: for every string `s`, `isHalRegexInternal` first lowercases `s` and
returns true iff the lowercased string contains `"hal"` but not `"halt"`, or
contains any of `"driver"`, `"arch"`, `"soc"`, `"cmsis"`; and for every
function with debug metadata, `isHalFuncRegex` (IsHalByName) is the OR of
this predicate applied independently to Name, LinkageName, SourceFile and
SourceDirectory. -/
theorem isHalRegex_matches_spec :
    (∀ s : List Char,
      (isHalRegexInternal s = true ↔
        ((strHal <:+: lowerStr s ∧ ¬strHalt <:+: lowerStr s) ∨
          strDriver <:+: lowerStr s ∨ strArch <:+: lowerStr s ∨
          strSoc <:+: lowerStr s ∨ strCmsis <:+: lowerStr s))) ∧
    ∀ d : DebugInfo,
      isHalFuncRegex (some d) =
        (isHalRegexInternal d.name || isHalRegexInternal d.linkageName ||
          isHalRegexInternal d.filename || isHalRegexInternal d.directory) := by
  refine ⟨fun s => ?_, fun d => rfl⟩
  rw [show isHalRegexInternal s =
      ((containsStr strHal (lowerStr s) && !containsStr strHalt (lowerStr s)) ||
        containsStr strDriver (lowerStr s) || containsStr strArch (lowerStr s) ||
        containsStr strSoc (lowerStr s) || containsStr strCmsis (lowerStr s)) from rfl]
  simp only [Bool.or_eq_true, Bool.and_eq_true, Bool.not_eq_true',
    containsStr_iff, containsStr_false_iff]
  tauto

/-- C2 (code bug): a registry function whose debug metadata (DISubprogram)
is unavailable is *not* handled non-fatally.  `isHalFuncRegex` alone does
warn and return false on a null DISubprogram, but the `MMIOFunc` constructor
runs first (line 48 before line 49) and dereferences the null pointer at
line 63 (`DISub->getFile()`), so the run crashes (`none`) instead of keeping
the function with `IsHalByName = false` and computed degrees. -/
theorem mmiofunc_ctor_crashes_without_metadata :
    isHalFuncRegex none = false ∧
    mkMMIOFunc { mmioLoc := none } none = none ∧
    runOnModule [] [⟨some 0, []⟩] [(0, { mmioLoc := none })] (fun _ => none)
      = none := by
  exact ⟨rfl, rfl, rfl⟩

/-- C8: the analysis is deterministic and stateless across runs.  The member
map left by any previous run (`prevMap`) is cleared at line 45 before it can
reach `std::map::insert` (which never overwrites), so two invocations over
the same call graph, registry and metadata return identical enriched
registries regardless of what any earlier run left behind. -/
theorem runOnModule_stateless (prev1 prev2 : List (Nat × MMIOFunc))
    (cg : List CGNode) (fns : List (Nat × PMMIOFunc))
    (dbgMeta : Nat → Option DebugInfo) :
    runOnModule prev1 cg fns dbgMeta = runOnModule prev2 cg fns dbgMeta := rfl

/-- C9: the reporter splits the enriched registry into exactly two buckets
keyed on `IsHal` (IsHalByName, not IsHalByDirectory): every entry with
`IsHal = false` lands in the "Application MMIO functions" section, every
entry with `IsHal = true` in the HAL section, each entry in exactly one
section; and every rendered line carries the symbol name, the MMIO
instruction location, `InDegree`, `TransClosureInDeg` and `IsHal2`
(IsHalByDirectory). -/
theorem reporter_partitions_by_IsHal (fname : Nat → List Char)
    (m : List (Nat × MMIOFunc)) :
    (∀ p ∈ m,
      (p ∈ (printHALBypassResult fname m).1.entries ↔ p.2.IsHal = false) ∧
      (p ∈ (printHALBypassResult fname m).2.entries ↔ p.2.IsHal = true)) ∧
    (∀ p, p ∈ (printHALBypassResult fname m).1.entries → p ∈ m) ∧
    (∀ p, p ∈ (printHALBypassResult fname m).2.entries → p ∈ m) ∧
    (printHALBypassResult fname m).1.entries.length +
        (printHALBypassResult fname m).2.entries.length = m.length ∧
    (printHALBypassResult fname m).1.lines =
        (printHALBypassResult fname m).1.entries.map (renderLine fname) ∧
    (printHALBypassResult fname m).2.lines =
        (printHALBypassResult fname m).2.entries.map (renderLine fname) ∧
    ∀ p : Nat × MMIOFunc,
      fname p.1 <+: renderLine fname p ∧
      printDebugLoc p.2.mmioLoc <:+: renderLine fname p ∧
      natToStr p.2.InDegree <:+: renderLine fname p ∧
      natToStr p.2.TransClosureInDeg <:+: renderLine fname p ∧
      boolToStr p.2.IsHal2 <:+: renderLine fname p := by
  refine ⟨fun p hp => ⟨?_, ?_⟩, fun p hp => ?_, fun p hp => ?_, ?_, rfl, rfl, fun p => ?_⟩
  · rw [show (printHALBypassResult fname m).1.entries = m.filter (fun e => !e.2.IsHal) from rfl,
      List.mem_filter]
    constructor
    · intro h
      simpa using h.2
    · intro h
      exact ⟨hp, by simp [h]⟩
  · rw [show (printHALBypassResult fname m).2.entries = m.filter (fun e => e.2.IsHal) from rfl,
      List.mem_filter]
    exact ⟨fun h => h.2, fun h => ⟨hp, h⟩⟩
  · exact (List.mem_filter.mp hp).1
  · exact (List.mem_filter.mp hp).1
  · exact length_filter_split m
  · refine ⟨⟨[' '] ++ printDebugLoc p.2.mmioLoc ++ [' '] ++ natToStr p.2.InDegree ++ [' '] ++
        natToStr p.2.TransClosureInDeg ++ [' '] ++ boolToStr p.2.IsHal2 ++ ['\n'],
        by simp [renderLine, List.append_assoc]⟩,
      ⟨fname p.1 ++ [' '], [' '] ++ natToStr p.2.InDegree ++ [' '] ++
        natToStr p.2.TransClosureInDeg ++ [' '] ++ boolToStr p.2.IsHal2 ++ ['\n'],
        by simp [renderLine, List.append_assoc]⟩,
      ⟨fname p.1 ++ [' '] ++ printDebugLoc p.2.mmioLoc ++ [' '],
        [' '] ++ natToStr p.2.TransClosureInDeg ++ [' '] ++ boolToStr p.2.IsHal2 ++ ['\n'],
        by simp [renderLine, List.append_assoc]⟩,
      ⟨fname p.1 ++ [' '] ++ printDebugLoc p.2.mmioLoc ++ [' '] ++ natToStr p.2.InDegree ++ [' '],
        [' '] ++ boolToStr p.2.IsHal2 ++ ['\n'],
        by simp [renderLine, List.append_assoc]⟩,
      ⟨fname p.1 ++ [' '] ++ printDebugLoc p.2.mmioLoc ++ [' '] ++ natToStr p.2.InDegree ++ [' '] ++
        natToStr p.2.TransClosureInDeg ++ [' '], ['\n'],
        by simp [renderLine, List.append_assoc]⟩⟩

/-- A concrete enriched entry and symbol-name table used as report-stage
witnesses. -/
def wMMIOFunc : MMIOFunc :=
  { mmioLoc := none, IsHal := false, IsHal2 := true, InDegree := 2,
    TransClosureInDeg := 3, FullPath := [], Dirname := [] }

def wReg : List (Nat × MMIOFunc) := [(0, wMMIOFunc)]

def wFname : Nat → List Char := fun _ => ['f']

/-- Witness for C9 at a concrete registry: a one-entry registry with
`IsHal = false` lands in the application section with all report fields. -/
theorem reporter_partitions_by_IsHal_witness :
    (∀ p ∈ wReg,
      (p ∈ (printHALBypassResult wFname wReg).1.entries ↔ p.2.IsHal = false) ∧
      (p ∈ (printHALBypassResult wFname wReg).2.entries ↔ p.2.IsHal = true)) ∧
    (∀ p, p ∈ (printHALBypassResult wFname wReg).1.entries → p ∈ wReg) ∧
    (∀ p, p ∈ (printHALBypassResult wFname wReg).2.entries → p ∈ wReg) ∧
    (printHALBypassResult wFname wReg).1.entries.length +
        (printHALBypassResult wFname wReg).2.entries.length = wReg.length ∧
    (printHALBypassResult wFname wReg).1.lines =
        (printHALBypassResult wFname wReg).1.entries.map (renderLine wFname) ∧
    (printHALBypassResult wFname wReg).2.lines =
        (printHALBypassResult wFname wReg).2.entries.map (renderLine wFname) ∧
    ∀ p : Nat × MMIOFunc,
      wFname p.1 <+: renderLine wFname p ∧
      printDebugLoc p.2.mmioLoc <:+: renderLine wFname p ∧
      natToStr p.2.InDegree <:+: renderLine wFname p ∧
      natToStr p.2.TransClosureInDeg <:+: renderLine wFname p ∧
      boolToStr p.2.IsHal2 <:+: renderLine wFname p :=
  reporter_partitions_by_IsHal wFname wReg

theorem runOnModule_eq (prev : List (Nat × MMIOFunc)) (cg : List CGNode)
    (fns : List (Nat × PMMIOFunc)) (dbgMeta : Nat → Option DebugInfo) :
    runOnModule prev cg fns dbgMeta =
      match buildMap fns dbgMeta with
      | none => none
      | some m0 => callGraphBasedHalIdent cg m0 := rfl

/-- Entry `p` of the final registry comes from entry `e` of the
degree-enriched registry `m2` with only `IsHal2` possibly flipped to true. -/
theorem applyHalDirs_mem {m2 : List (Nat × MMIOFunc)} {p : Nat × MMIOFunc}
    (hp : p ∈ applyHalDirs m2) :
    ∃ e ∈ m2, p = if (halDirsOf m2).contains e.2.Dirname
      then (e.1, { e.2 with IsHal2 := true }) else e := by
  obtain ⟨e, he, hp⟩ := List.mem_map.mp hp
  exact ⟨e, he, hp.symm⟩

/-- C1: in the enriched registry produced by `runOnModule`, a function's
`IsHal2` (IsHalByDirectory) is true exactly when some registry function `g`
shares its `Dirname` and has `TransClosureInDeg >= 10`; the threshold is the
fixed constant 10 and the function's own degree only matters as a possible
witness `g`. -/
theorem dirInference_iff_highTraffic_dir
    (prev : List (Nat × MMIOFunc)) (cg : List CGNode)
    (fns : List (Nat × PMMIOFunc)) (dbgMeta : Nat → Option DebugInfo)
    (out : List (Nat × MMIOFunc))
    (hrun : runOnModule prev cg fns dbgMeta = some out) :
    ∀ p ∈ out, (p.2.IsHal2 = true ↔
      ∃ q ∈ out, q.2.Dirname = p.2.Dirname ∧ 10 ≤ q.2.TransClosureInDeg) := by
  rw [runOnModule_eq] at hrun
  cases hb : buildMap fns dbgMeta with
  | none => rw [hb] at hrun; exact Option.noConfusion hrun
  | some m0 =>
      rw [hb] at hrun
      replace hrun : (enrichDegrees cg m0).map applyHalDirs = some out := hrun
      cases he : enrichDegrees cg m0 with
      | none => rw [he] at hrun; exact Option.noConfusion hrun
      | some m2 =>
          rw [he] at hrun
          replace hrun : some (applyHalDirs m2) = some out := hrun
          have hout : out = applyHalDirs m2 := (Option.some.inj hrun).symm
          have hfalse : ∀ e ∈ m2, e.2.IsHal2 = false :=
            enrichDegrees_isHal2 (buildMap_isHal2 hb) he
          subst hout
          intro p hp
          obtain ⟨e, hem, rfl⟩ := applyHalDirs_mem hp
          obtain ⟨h1, h2, h3, _, _⟩ := applyHalDirs_entry m2 e
          constructor
          · intro hal2
            have hc : (halDirsOf m2).contains e.2.Dirname = true := by
              by_contra hc
              rw [if_neg (by simpa using hc)] at hal2
              exact absurd (hal2.symm.trans (hfalse e hem)) (by simp)
            obtain ⟨g, hgm, hgdir, hgdeg⟩ :=
              (halDirsOf_mem m2 e.2.Dirname).mp (List.elem_iff.mp hc)
            refine ⟨if (halDirsOf m2).contains g.2.Dirname
                then (g.1, { g.2 with IsHal2 := true }) else g,
              List.mem_map.mpr ⟨g, hgm, rfl⟩, ?_, ?_⟩
            · rw [(applyHalDirs_entry m2 g).2.1, h2, hgdir]
            · rw [(applyHalDirs_entry m2 g).2.2.1]
              exact hgdeg
          · rintro ⟨q, hq, hqdir, hqdeg⟩
            obtain ⟨g, hgm, rfl⟩ := applyHalDirs_mem hq
            have hgdir : g.2.Dirname = e.2.Dirname := by
              rw [← (applyHalDirs_entry m2 g).2.1, hqdir, h2]
            have hgdeg : 10 ≤ g.2.TransClosureInDeg := by
              rw [← (applyHalDirs_entry m2 g).2.2.1]
              exact hqdeg
            have hc : e.2.Dirname ∈ halDirsOf m2 :=
              (halDirsOf_mem m2 e.2.Dirname).mpr ⟨g, hgm, hgdir, hgdeg⟩
            rw [if_pos (List.elem_iff.mpr hc)]

/-- Witness inputs: one function calling itself through two call sites. -/
def wCG : List CGNode := [⟨some 0, [0, 0]⟩]

def wPReg : List (Nat × PMMIOFunc) := [(0, ⟨none⟩)]

def wMeta : Nat → Option DebugInfo := fun _ => some ⟨['m'], [], ['f'], ['d']⟩

def wOut : List (Nat × MMIOFunc) :=
  [(0, ⟨⟨none⟩, false, false, 2, 1, ['d', '/', 'f'], ['d']⟩)]

/-- Witness for C1 on a concrete run. -/
theorem dirInference_iff_highTraffic_dir_witness :
    runOnModule [] wCG wPReg wMeta = some wOut ∧
    ∀ p ∈ wOut, (p.2.IsHal2 = true ↔
      ∃ q ∈ wOut, q.2.Dirname = p.2.Dirname ∧ 10 ≤ q.2.TransClosureInDeg) :=
  ⟨by decide, dirInference_iff_highTraffic_dir [] wCG wPReg wMeta wOut (by decide)⟩

/-- C5: every function of the enriched registry has `InDegree` equal to the
number of call records across the whole graph whose resolved callee is that
function, call sites counted with multiplicity; calls through function
pointers resolve to the external node, whose function is null, so they never
contribute. -/
theorem inDegree_counts_call_sites
    (prev : List (Nat × MMIOFunc)) (cg : List CGNode)
    (fns : List (Nat × PMMIOFunc)) (dbgMeta : Nat → Option DebugInfo)
    (out : List (Nat × MMIOFunc))
    (hrun : runOnModule prev cg fns dbgMeta = some out) :
    (∀ p ∈ out, p.2.InDegree = (allCallTargets cg).count (some p.1)) ∧
      calleeFunc cg (extIdx cg) = none := by
  constructor
  · rw [runOnModule_eq] at hrun
    cases hb : buildMap fns dbgMeta with
    | none => rw [hb] at hrun; exact Option.noConfusion hrun
    | some m0 =>
        rw [hb] at hrun
        replace hrun : (enrichDegrees cg m0).map applyHalDirs = some out := hrun
        cases he : enrichDegrees cg m0 with
        | none => rw [he] at hrun; exact Option.noConfusion hrun
        | some m2 =>
            rw [he] at hrun
            replace hrun : some (applyHalDirs m2) = some out := hrun
            have hout : out = applyHalDirs m2 := (Option.some.inj hrun).symm
            subst hout
            intro p hp
            obtain ⟨e, hem, rfl⟩ := applyHalDirs_mem hp
            obtain ⟨h1, _, _, h4, _⟩ := applyHalDirs_entry m2 e
            rw [h1, h4]
            unfold enrichDegrees computeCallGraphTransClosure at he
            obtain ⟨q, idx, hq, hkey, _, hval⟩ := setTransClosure_mem he e hem
            rw [computeCallGraphInDegrees_eq] at hq
            obtain ⟨r, hr, rfl⟩ := List.mem_map.mp hq
            rw [hkey, hval]
  · unfold calleeFunc extIdx
    rw [List.get?_eq_none.mpr (Nat.le_refl _)]

/-- Witness for C5 on a concrete run: two self-call sites give in-degree 2. -/
theorem inDegree_counts_call_sites_witness :
    runOnModule [] wCG wPReg wMeta = some wOut ∧
    ((∀ p ∈ wOut, p.2.InDegree = (allCallTargets wCG).count (some p.1)) ∧
      calleeFunc wCG (extIdx wCG) = none) :=
  ⟨by decide, inDegree_counts_call_sites [] wCG wPReg wMeta wOut (by decide)⟩

/-- C3: the `K`-outermost triple loop computes the non-reflexive
reachability closure of the adjacency matrix — cell `(i, j)` ends true
exactly when `j` is reachable from `i` through one or more direct-call
edges — and the stage writes into each registry function at node index
`idx` the number of indices `i` with `reachable[i][idx]` true. -/
theorem transClosure_computes_reachability_count
    (cg : List CGNode) (m out : List (Nat × MMIOFunc))
    (hwf : CGWellFormed cg)
    (hrun : computeCallGraphTransClosure cg m = some out) :
    (∀ i j, i < numNodes cg → j < numNodes cg →
      (mget (numNodes cg) (fwClosure (numNodes cg) (initAdj cg)) i j = true ↔
        Relation.TransGen (fun a b => adjOf cg a b = true) i j)) ∧
    ∀ p ∈ out, ∀ idx, nodeIdxOf cg p.1 = some idx →
      p.2.TransClosureInDeg =
        ((List.range (numNodes cg)).filter
          (fun i => mget (numNodes cg) (fwClosure (numNodes cg) (initAdj cg)) i idx)).length := by
  obtain ⟨hlen, hcells⟩ := initAdj_spec cg hwf
  have hcorr :=
    fwClosure_correct (numNodes cg) (adjOf cg) (initAdj cg) hlen hcells (adjOf_supp hwf)
  refine ⟨hcorr.2, ?_⟩
  intro p hp idx hidx
  obtain ⟨q, idx', hq, hkey, hidx', hval⟩ := setTransClosure_mem hrun p hp
  rw [hkey] at hidx
  have hii : idx' = idx := Option.some.inj (hidx'.symm.trans hidx)
  subst hii
  rw [hval]
  exact sum_indicator_eq_length_filter _ _

/-- Witness for C3: one self-calling function, transitive in-degree 1. -/
theorem transClosure_computes_reachability_count_witness :
    CGWellFormed wCG ∧
    computeCallGraphTransClosure wCG wReg =
      some [(0, ⟨⟨none⟩, false, true, 2, 1, [], []⟩)] ∧
    ((∀ i j, i < numNodes wCG → j < numNodes wCG →
      (mget (numNodes wCG) (fwClosure (numNodes wCG) (initAdj wCG)) i j = true ↔
        Relation.TransGen (fun a b => adjOf wCG a b = true) i j)) ∧
    ∀ p ∈ [((0 : Nat), (⟨⟨none⟩, false, true, 2, 1, [], []⟩ : MMIOFunc))],
      ∀ idx, nodeIdxOf wCG p.1 = some idx →
      p.2.TransClosureInDeg =
        ((List.range (numNodes wCG)).filter
          (fun i => mget (numNodes wCG) (fwClosure (numNodes wCG) (initAdj wCG)) i idx)).length) :=
  ⟨by decide, by decide,
    transClosure_computes_reachability_count wCG wReg
      [(0, ⟨⟨none⟩, false, true, 2, 1, [], []⟩)] (by decide) (by decide)⟩

/-- C7: adding any call edge to the graph never decreases the
`TransClosureInDeg` the closure stage computes for any registry function. -/
theorem transClosureInDeg_monotone_addCall
    (cg : List CGNode) (u v : Nat) (m out out' : List (Nat × MMIOFunc))
    (hwf : CGWellFormed cg) (hv : v < numNodes cg)
    (hrun : computeCallGraphTransClosure cg m = some out)
    (hrun' : computeCallGraphTransClosure (addCall cg u v) m = some out')
    (k : Nat) (p p' : Nat × MMIOFunc)
    (hk : out.get? k = some p) (hk' : out'.get? k = some p') :
    p.2.TransClosureInDeg ≤ p'.2.TransClosureInDeg := by
  obtain ⟨q, idx, hq, hkey, hidx, hval⟩ := setTransClosure_get hrun k p hk
  obtain ⟨q2, idx2, hq2, hkey2, hidx2, hval2⟩ := setTransClosure_get hrun' k p' hk'
  have hqq : q2 = q := Option.some.inj (hq2.symm.trans hq)
  subst hqq
  rw [addCall_nodeIdxOf] at hidx2
  have hii : idx2 = idx := Option.some.inj (hidx2.symm.trans hidx)
  rw [hii] at hval2
  have hwf' : CGWellFormed (addCall cg u v) := addCall_wf hwf hv
  have hidxn : idx < numNodes cg := Nat.lt_succ_of_lt (nodeIdxOf_lt hidx)
  obtain ⟨hlen, hcells⟩ := initAdj_spec cg hwf
  obtain ⟨hlen', hcells'⟩ := initAdj_spec (addCall cg u v) hwf'
  have hcorr :=
    fwClosure_correct (numNodes cg) (adjOf cg) (initAdj cg) hlen hcells (adjOf_supp hwf)
  have hcorr' :=
    fwClosure_correct (numNodes (addCall cg u v)) (adjOf (addCall cg u v))
      (initAdj (addCall cg u v)) hlen' hcells' (adjOf_supp hwf')
  rw [addCall_numNodes] at hcorr'
  rw [hval, hval2]
  show closureInDeg (numNodes cg) (fwClosure (numNodes cg) (initAdj cg)) idx ≤
    closureInDeg (numNodes (addCall cg u v))
      (fwClosure (numNodes (addCall cg u v)) (initAdj (addCall cg u v))) idx
  unfold closureInDeg
  rw [sum_indicator_eq_length_filter, sum_indicator_eq_length_filter,
    addCall_numNodes]
  apply length_filter_mono
  intro i hi hreach
  have hin : i < numNodes cg := List.mem_range.mp hi
  have htg := (hcorr.2 i idx hin hidxn).mp hreach
  have htg' : Relation.TransGen (fun a b => adjOf (addCall cg u v) a b = true) i idx :=
    htg.mono (fun a b h => addCall_adjOf_mono h)
  exact (hcorr'.2 i idx hin hidxn).mpr htg'

/-- Witness inputs for C7: an empty one-node graph and its self-loop
extension. -/
def wCG2 : List CGNode := [⟨some 0, []⟩]

/-- Witness for C7: adding the self edge raises the closure in-degree 0 → 1. -/
theorem transClosureInDeg_monotone_addCall_witness :
    CGWellFormed wCG2 ∧ (0 : Nat) < numNodes wCG2 ∧
    computeCallGraphTransClosure wCG2 wReg =
      some [(0, ⟨⟨none⟩, false, true, 2, 0, [], []⟩)] ∧
    computeCallGraphTransClosure (addCall wCG2 0 0) wReg =
      some [(0, ⟨⟨none⟩, false, true, 2, 1, [], []⟩)] ∧
    ((0 : Nat), (⟨⟨none⟩, false, true, 2, 0, [], []⟩ : MMIOFunc)).2.TransClosureInDeg ≤
      ((0 : Nat), (⟨⟨none⟩, false, true, 2, 1, [], []⟩ : MMIOFunc)).2.TransClosureInDeg :=
  ⟨by decide, by decide, by decide, by decide,
    transClosureInDeg_monotone_addCall wCG2 0 0 wReg
      [(0, ⟨⟨none⟩, false, true, 2, 0, [], []⟩)]
      [(0, ⟨⟨none⟩, false, true, 2, 1, [], []⟩)]
      (by decide) (by decide) (by decide) (by decide) 0
      (0, ⟨⟨none⟩, false, true, 2, 0, [], []⟩)
      (0, ⟨⟨none⟩, false, true, 2, 1, [], []⟩) (by decide) (by decide)⟩

/-- C10: a registry function at node `idx` counts itself in its own
`TransClosureInDeg` exactly when it lies on a directed cycle of call edges
(a direct self-call included): the closure stage counts exactly the filter
set below, and `idx` belongs to it iff `idx` reaches itself through one or
more edges. -/
theorem selfReach_counts_iff_on_cycle
    (cg : List CGNode) (f idx : Nat) (hwf : CGWellFormed cg)
    (hidx : nodeIdxOf cg f = some idx) :
    (idx ∈ (List.range (numNodes cg)).filter
        (fun i => mget (numNodes cg) (fwClosure (numNodes cg) (initAdj cg)) i idx) ↔
      Relation.TransGen (fun a b => adjOf cg a b = true) idx idx) ∧
    closureInDeg (numNodes cg) (fwClosure (numNodes cg) (initAdj cg)) idx =
      ((List.range (numNodes cg)).filter
        (fun i => mget (numNodes cg) (fwClosure (numNodes cg) (initAdj cg)) i idx)).length := by
  have hidxn : idx < numNodes cg := Nat.lt_succ_of_lt (nodeIdxOf_lt hidx)
  obtain ⟨hlen, hcells⟩ := initAdj_spec cg hwf
  have hcorr :=
    fwClosure_correct (numNodes cg) (adjOf cg) (initAdj cg) hlen hcells (adjOf_supp hwf)
  constructor
  · rw [List.mem_filter, List.mem_range]
    constructor
    · intro h
      exact (hcorr.2 idx idx hidxn hidxn).mp h.2
    · intro h
      exact ⟨hidxn, (hcorr.2 idx idx hidxn hidxn).mpr h⟩
  · exact sum_indicator_eq_length_filter _ _

/-- Witness for C10: the self-calling node of `wCG` counts itself. -/
theorem selfReach_counts_iff_on_cycle_witness :
    CGWellFormed wCG ∧ nodeIdxOf wCG 0 = some 0 ∧
    ((0 ∈ (List.range (numNodes wCG)).filter
        (fun i => mget (numNodes wCG) (fwClosure (numNodes wCG) (initAdj wCG)) i 0) ↔
      Relation.TransGen (fun a b => adjOf wCG a b = true) 0 0) ∧
    closureInDeg (numNodes wCG) (fwClosure (numNodes wCG) (initAdj wCG)) 0 =
      ((List.range (numNodes wCG)).filter
        (fun i => mget (numNodes wCG) (fwClosure (numNodes wCG) (initAdj wCG)) i 0)).length) :=
  ⟨by decide, by decide, selfReach_counts_iff_on_cycle wCG 0 0 (by decide) (by decide)⟩

/-! ### C6 scenario: chain A→B→C with ten nodes reaching C in `/drv` -/

/-- The scenario graph: node 0 is `C` (in `/drv`), 1 is `A`, 2 is `B` with
`A→B→C`; nodes 3-10 are eight further roots calling `A`; node 11 is `D`,
a second function in `/drv` with no callers; node 12 is the
external-calling node.  `CallsExternalNode` sits at index 13, so `N = 14`.
Exactly the ten nodes 1-10 reach `C`; nothing reaches `D`. -/
def cgScen : List CGNode :=
  [⟨some 0, []⟩,
   ⟨some 1, [2]⟩,
   ⟨some 2, [0]⟩,
   ⟨some 3, [1]⟩, ⟨some 4, [1]⟩, ⟨some 5, [1]⟩, ⟨some 6, [1]⟩,
   ⟨some 7, [1]⟩, ⟨some 8, [1]⟩, ⟨some 9, [1]⟩, ⟨some 10, [1]⟩,
   ⟨some 11, []⟩,
   ⟨none, []⟩]

def strDrv : List Char := ['/', 'd', 'r', 'v']

def pmNone : PMMIOFunc := ⟨none⟩

/-- Debug metadata: `C` and `D` both live in directory `/drv`. -/
def metaScen : Nat → Option DebugInfo := fun f =>
  if f = 0 then some ⟨['c'], ['c'], ['c', '.', 'c'], strDrv⟩
  else if f = 11 then some ⟨['d'], ['d'], ['d', '.', 'c'], strDrv⟩
  else none

/-- Registry of the first scenario: `C` is the sole MMIO function. -/
def regScen1 : List (Nat × PMMIOFunc) := [(0, pmNone)]

/-- Registry of the second scenario: `C` plus the zero-in-degree `D`. -/
def regScen2 : List (Nat × PMMIOFunc) := [(0, pmNone), (11, pmNone)]

def pathC : List Char := ['/', 'd', 'r', 'v', '/', 'c', '.', 'c']

def pathD : List Char := ['/', 'd', 'r', 'v', '/', 'd', '.', 'c']

def mfC0 : MMIOFunc := ⟨⟨none⟩, false, false, 0, 0, pathC, strDrv⟩

def mfD0 : MMIOFunc := ⟨⟨none⟩, false, false, 0, 0, pathD, strDrv⟩

/-- Exactly the nodes 1-10 step into the set reaching `C` (node 0). -/
theorem scenStep0 : ∀ i j, adjOf cgScen i j = true →
    (j = 0 ∨ (1 ≤ j ∧ j ≤ 10)) → 1 ≤ i ∧ i ≤ 10 := by
  have hb : ∀ i, i < 13 → ∀ j, j < 14 → adjOf cgScen i j = true →
      ((j = 0 ∨ (1 ≤ j ∧ j ≤ 10)) → 1 ≤ i ∧ i ≤ 10) := by decide
  intro i j h hj
  have hi : i < 13 := adjOf_lt_left h
  have hj14 : j < 14 := (adjOf_supp (by decide) i j h).2
  exact hb i hi j hj14 h hj

/-- Every node 1-10 reaches `C` through one or more call edges. -/
theorem scenReachPos : ∀ i, 1 ≤ i → i ≤ 10 →
    Relation.TransGen (fun a b => adjOf cgScen a b = true) i 0 := by
  have t2 : Relation.TransGen (fun a b => adjOf cgScen a b = true) 2 0 :=
    Relation.TransGen.single (by decide)
  have t1 : Relation.TransGen (fun a b => adjOf cgScen a b = true) 1 0 :=
    Relation.TransGen.head (by decide) t2
  intro i h1 h10
  interval_cases i
  · exact t1
  · exact t2
  · exact Relation.TransGen.head (by decide) t1
  · exact Relation.TransGen.head (by decide) t1
  · exact Relation.TransGen.head (by decide) t1
  · exact Relation.TransGen.head (by decide) t1
  · exact Relation.TransGen.head (by decide) t1
  · exact Relation.TransGen.head (by decide) t1
  · exact Relation.TransGen.head (by decide) t1
  · exact Relation.TransGen.head (by decide) t1

/-- Only the nodes 1-10 reach `C`. -/
theorem scenReach0 : ∀ i,
    Relation.TransGen (fun a b => adjOf cgScen a b = true) i 0 →
      1 ≤ i ∧ i ≤ 10 := by
  intro i h
  induction h using Relation.TransGen.head_induction_on with
  | base hh => exact scenStep0 _ 0 hh (Or.inl rfl)
  | ih hh htg ihp => exact scenStep0 _ _ hh (Or.inr ihp)

/-- No node reaches `D` (node 11): it has no incoming edge at all. -/
theorem scenNo11 : ∀ i,
    ¬Relation.TransGen (fun a b => adjOf cgScen a b = true) i 11 := by
  have hno : ∀ m, adjOf cgScen m 11 ≠ true := by
    have hb : ∀ m, m < 13 → adjOf cgScen m 11 = false := by decide
    intro m h
    have hm : m < 13 := adjOf_lt_left h
    rw [hb m hm] at h
    exact absurd h (by decide)
  intro i h
  cases h with
  | single hh => exact hno _ hh
  | tail _ hh => exact hno _ hh

/-- Column 0 of the closed matrix holds exactly the indicator of `1..10`. -/
theorem scenCell0 : ∀ i, i < numNodes cgScen →
    mget (numNodes cgScen) (fwClosure (numNodes cgScen) (initAdj cgScen)) i 0 =
      decide (1 ≤ i ∧ i ≤ 10) := by
  have hwf : CGWellFormed cgScen := by decide
  obtain ⟨hlen, hcells⟩ := initAdj_spec cgScen hwf
  have hcorr := fwClosure_correct (numNodes cgScen) (adjOf cgScen) (initAdj cgScen)
    hlen hcells (adjOf_supp hwf)
  intro i hi
  by_cases hS : 1 ≤ i ∧ i ≤ 10
  · rw [decide_eq_true hS]
    exact (hcorr.2 i 0 hi (by decide)).mpr (scenReachPos i hS.1 hS.2)
  · rw [decide_eq_false hS]
    cases hm : mget (numNodes cgScen) (fwClosure (numNodes cgScen) (initAdj cgScen)) i 0 with
    | false => rfl
    | true => exact absurd (scenReach0 i ((hcorr.2 i 0 hi (by decide)).mp hm)) hS

/-- Column 11 of the closed matrix is all false. -/
theorem scenCell11 : ∀ i, i < numNodes cgScen →
    mget (numNodes cgScen) (fwClosure (numNodes cgScen) (initAdj cgScen)) i 11 = false := by
  have hwf : CGWellFormed cgScen := by decide
  obtain ⟨hlen, hcells⟩ := initAdj_spec cgScen hwf
  have hcorr := fwClosure_correct (numNodes cgScen) (adjOf cgScen) (initAdj cgScen)
    hlen hcells (adjOf_supp hwf)
  intro i hi
  cases hm : mget (numNodes cgScen) (fwClosure (numNodes cgScen) (initAdj cgScen)) i 11 with
  | false => rfl
  | true => exact absurd ((hcorr.2 i 11 hi (by decide)).mp hm) (scenNo11 i)

/-- `C` has transitive in-degree exactly 10. -/
theorem scenDeg0 :
    closureInDeg (numNodes cgScen) (fwClosure (numNodes cgScen) (initAdj cgScen)) 0
      = 10 := by
  unfold closureInDeg
  rw [show List.range (numNodes cgScen) = [0, 1, 2, 3, 4, 5, 6, 7, 8, 9, 10, 11, 12, 13]
    from rfl]
  simp only [List.map_cons, List.map_nil]
  rw [scenCell0 0 (by decide), scenCell0 1 (by decide), scenCell0 2 (by decide),
    scenCell0 3 (by decide), scenCell0 4 (by decide), scenCell0 5 (by decide),
    scenCell0 6 (by decide), scenCell0 7 (by decide), scenCell0 8 (by decide),
    scenCell0 9 (by decide), scenCell0 10 (by decide), scenCell0 11 (by decide),
    scenCell0 12 (by decide), scenCell0 13 (by decide)]
  decide

/-- `D` has transitive in-degree 0. -/
theorem scenDeg11 :
    closureInDeg (numNodes cgScen) (fwClosure (numNodes cgScen) (initAdj cgScen)) 11
      = 0 := by
  unfold closureInDeg
  rw [show List.range (numNodes cgScen) = [0, 1, 2, 3, 4, 5, 6, 7, 8, 9, 10, 11, 12, 13]
    from rfl]
  simp only [List.map_cons, List.map_nil]
  rw [scenCell11 0 (by decide), scenCell11 1 (by decide), scenCell11 2 (by decide),
    scenCell11 3 (by decide), scenCell11 4 (by decide), scenCell11 5 (by decide),
    scenCell11 6 (by decide), scenCell11 7 (by decide), scenCell11 8 (by decide),
    scenCell11 9 (by decide), scenCell11 10 (by decide), scenCell11 11 (by decide),
    scenCell11 12 (by decide), scenCell11 13 (by decide)]
  decide

theorem scenBuild1 : buildMap regScen1 metaScen = some [(0, mfC0)] := by decide

theorem scenInDeg1 : computeCallGraphInDegrees cgScen [(0, mfC0)] =
    [(0, { mfC0 with InDegree := 1 })] := by decide

theorem scenSet1 (inDeg : Nat → Nat) :
    setTransClosure inDeg cgScen [(0, { mfC0 with InDegree := 1 })] =
      some [(0, { mfC0 with InDegree := 1, TransClosureInDeg := inDeg 0 })] := rfl

theorem scenRun1 : runOnModule [] cgScen regScen1 metaScen =
    some [(0, { mfC0 with InDegree := 1, TransClosureInDeg := 10, IsHal2 := true })] := by
  rw [runOnModule_eq, scenBuild1]
  show callGraphBasedHalIdent cgScen [(0, mfC0)] = _
  unfold callGraphBasedHalIdent enrichDegrees computeCallGraphTransClosure
  rw [scenInDeg1, scenSet1, scenDeg0]
  decide

theorem scenBuild2 : buildMap regScen2 metaScen = some [(0, mfC0), (11, mfD0)] := by
  decide

theorem scenInDeg2 : computeCallGraphInDegrees cgScen [(0, mfC0), (11, mfD0)] =
    [(0, { mfC0 with InDegree := 1 }), (11, mfD0)] := by decide

theorem scenSet2 (inDeg : Nat → Nat) :
    setTransClosure inDeg cgScen [(0, { mfC0 with InDegree := 1 }), (11, mfD0)] =
      some [(0, { mfC0 with InDegree := 1, TransClosureInDeg := inDeg 0 }),
            (11, { mfD0 with TransClosureInDeg := inDeg 11 })] := rfl

theorem scenRun2 : runOnModule [] cgScen regScen2 metaScen =
    some [(0, { mfC0 with InDegree := 1, TransClosureInDeg := 10, IsHal2 := true }),
          (11, { mfD0 with TransClosureInDeg := 0, IsHal2 := true })] := by
  rw [runOnModule_eq, scenBuild2]
  show callGraphBasedHalIdent cgScen [(0, mfC0), (11, mfD0)] = _
  unfold callGraphBasedHalIdent enrichDegrees computeCallGraphTransClosure
  rw [scenInDeg2, scenSet2, scenDeg0, scenDeg11]
  decide

/-- C6: in the chain scenario `A→B→C` on `cgScen`, where ten distinct nodes
have a direct or transitive path to the MMIO function `C` in `/drv`, the
analysis computes `TransClosureInDeg(C) = 10`, the inferred HAL-directory
set is exactly `[/drv]`, and every MMIO function whose directory is `/drv`
ends with `IsHal2 = true` — including, in the second registry, the function
`D` with `InDegree = 0` and `TransClosureInDeg = 0`. -/
theorem scenario_chain_halDir :
    runOnModule [] cgScen regScen1 metaScen =
      some [(0, { mfC0 with InDegree := 1, TransClosureInDeg := 10, IsHal2 := true })] ∧
    ((buildMap regScen1 metaScen).bind (enrichDegrees cgScen)).map halDirsOf =
      some [strDrv] ∧
    runOnModule [] cgScen regScen2 metaScen =
      some [(0, { mfC0 with InDegree := 1, TransClosureInDeg := 10, IsHal2 := true }),
            (11, { mfD0 with TransClosureInDeg := 0, IsHal2 := true })] ∧
    mfD0.InDegree = 0 ∧ mfD0.Dirname = strDrv := by
  refine ⟨scenRun1, ?_, scenRun2, rfl, rfl⟩
  rw [scenBuild1]
  show ((enrichDegrees cgScen [(0, mfC0)]).map halDirsOf) = some [strDrv]
  unfold enrichDegrees computeCallGraphTransClosure
  rw [scenInDeg1, scenSet1, scenDeg0]
  decide

end HalBypass
